import Mathlib

/-!
Verification of the SQL step compiler and incremental execution engine of
the GraphMind repository (`src/backend/query_visualizer.py`).

The Python source is shallowly embedded: string-processing helpers of the
source are translated to structurally recursive functions over `List Char`
(Python `str.split`, `str.strip`, `str.lower`, decimal formatting), pandas
DataFrames become `Relation` values (ordered column list plus rows of
optional cells, `none` standing for NaN/null), and the step compiler
(`SQLQueryParser.parse` / `_parse_union`) becomes a function from extracted
clause structures to step lists.  The DuckDB evaluator is kept abstract
where a claim only concerns the surrounding control flow.
-/

namespace GraphMind

/-! ## Character-level string primitives (Python `str` operations) -/

/-- Translation of Python `s.split(sep)` for a single-character separator:
splits on every occurrence, keeping empty parts. -/
def splitCh (sep : Char) : List Char → List (List Char)
  | [] => [[]]
  | c :: rest =>
    let r := splitCh sep rest
    if c = sep then [] :: r
    else
      match r with
      | [] => [[c]]
      | h :: t => (c :: h) :: t

/-- Translation of Python `s.strip()`: drop whitespace from both ends. -/
def trimChars (l : List Char) : List Char :=
  ((l.dropWhile Char.isWhitespace).reverse.dropWhile Char.isWhitespace).reverse

/-- Python `s.strip()` on `String`. -/
def pyStrip (s : String) : String :=
  String.mk (trimChars s.data)

/-- Python `s.lower()` on `String` (ASCII view, as used by the source). -/
def sToLower (s : String) : String :=
  String.mk (s.data.map Char.toLower)

/-- Python `'sep'.join(parts)` for a single-character separator. -/
def joinSep (sep : Char) : List (List Char) → List Char
  | [] => []
  | [x] => x
  | x :: rest => x ++ sep :: joinSep sep rest

/-! ## Decimal rendering of naturals (Python `str(n)` / f-string formatting)

Defined by structural recursion on a fuel argument so that concrete values
reduce in the kernel; `Nat.ofDigits` from Mathlib certifies correctness. -/

/-- Least-significant-first decimal digits of `n`, with fuel. -/
def digitsRevAux (fuel : Nat) (n : Nat) : List Nat :=
  match fuel with
  | 0 => []
  | fuel + 1 => if n = 0 then [] else (n % 10) :: digitsRevAux fuel (n / 10)

/-- Decimal digit list of `n` (least significant first, `0` rendered as `[0]`). -/
def digitsOf (n : Nat) : List Nat :=
  if n = 0 then [0] else digitsRevAux n n

/-- The character of a decimal digit. -/
def digitChar (d : Nat) : Char := Char.ofNat (48 + d)

/-- Python `str(n)` for a natural number. -/
def natDecimal (n : Nat) : String :=
  String.mk (((digitsOf n).map digitChar).reverse)

theorem ofDigits_digitsRevAux (fuel n : Nat) (h : n ≤ fuel) :
    Nat.ofDigits 10 (digitsRevAux fuel n) = n := by
  induction fuel generalizing n with
  | zero =>
    have : n = 0 := Nat.le_zero.mp h
    simp [digitsRevAux, this, Nat.ofDigits_nil]
  | succ fuel ih =>
    by_cases hn : n = 0
    · simp [digitsRevAux, hn, Nat.ofDigits_nil]
    · have hdiv : n / 10 ≤ fuel := by
        have h1 : n / 10 < n := Nat.div_lt_self (Nat.pos_of_ne_zero hn) (by omega)
        omega
      simp only [digitsRevAux, hn, if_false, Nat.ofDigits_cons, ih _ hdiv]
      omega

theorem ofDigits_digitsOf (n : Nat) : Nat.ofDigits 10 (digitsOf n) = n := by
  by_cases hn : n = 0
  · simp [digitsOf, hn, Nat.ofDigits_cons, Nat.ofDigits_nil]
  · simp only [digitsOf, hn, if_false]
    exact ofDigits_digitsRevAux n n (Nat.le_refl n)

theorem digitsRevAux_lt_ten (fuel n : Nat) : ∀ d ∈ digitsRevAux fuel n, d < 10 := by
  induction fuel generalizing n with
  | zero => simp [digitsRevAux]
  | succ fuel ih =>
    intro d hd
    by_cases hn : n = 0
    · simp [digitsRevAux, hn] at hd
    · simp only [digitsRevAux, hn, if_false, List.mem_cons] at hd
      rcases hd with h | h
      · omega
      · exact ih _ d h

theorem digitsOf_lt_ten (n : Nat) : ∀ d ∈ digitsOf n, d < 10 := by
  intro d hd
  by_cases hn : n = 0
  · simp [digitsOf, hn] at hd
    omega
  · simp only [digitsOf, hn, if_false] at hd
    exact digitsRevAux_lt_ten n n d hd

theorem digitChar_toNat (d : Nat) (h : d < 10) : (digitChar d).toNat = 48 + d := by
  interval_cases d <;> decide

theorem digitChar_inj {d e : Nat} (hd : d < 10) (he : e < 10)
    (h : digitChar d = digitChar e) : d = e := by
  have := congrArg Char.toNat h
  rw [digitChar_toNat d hd, digitChar_toNat e he] at this
  omega

theorem map_digitChar_inj : ∀ (l₁ l₂ : List Nat), (∀ d ∈ l₁, d < 10) → (∀ d ∈ l₂, d < 10) →
    l₁.map digitChar = l₂.map digitChar → l₁ = l₂ := by
  intro l₁
  induction l₁ with
  | nil => intro l₂ _ _ h; cases l₂ <;> simp_all
  | cons a t ih =>
    intro l₂ h₁ h₂ h
    cases l₂ with
    | nil => simp at h
    | cons b t₂ =>
      simp only [List.map_cons, List.cons.injEq] at h
      have hab : a = b :=
        digitChar_inj (h₁ a (by simp)) (h₂ b (by simp)) h.1
      have ht : t = t₂ :=
        ih t₂ (fun d hd => h₁ d (by simp [hd])) (fun d hd => h₂ d (by simp [hd])) h.2
      rw [hab, ht]

theorem natDecimal_inj : Function.Injective natDecimal := by
  intro n m h
  have hdata := congrArg String.data h
  simp only [natDecimal] at hdata
  have hrev := congrArg List.reverse hdata
  simp only [List.reverse_reverse] at hrev
  have hdig := map_digitChar_inj _ _ (digitsOf_lt_ten n) (digitsOf_lt_ten m) hrev
  have := congrArg (Nat.ofDigits 10) hdig
  rwa [ofDigits_digitsOf, ofDigits_digitsOf] at this

/-! ## Data model: relations

A `Relation` is pandas DataFrame data: an ordered list of column names and
rows of cells aligned with the columns; a `none` cell is NaN/null. -/

/-- A scalar value of a cell. -/
inductive Val where
  | intV (i : Int)
  | strV (s : String)
  | boolV (b : Bool)
  deriving DecidableEq, Repr

/-- A cell: a value or null/NaN. -/
abbrev Cell := Option Val

/-- A relation: ordered column names plus rows aligned with the columns. -/
structure Relation where
  cols : List String
  rows : List (List Cell)
  deriving DecidableEq, Repr

/-- Value of column `c` in a row of a relation with columns `cols`
(missing column reads as null, which is how pandas aligns by label). -/
def lookupCell (cols : List String) (row : List Cell) (c : String) : Cell :=
  match (cols.zip row).find? (fun p => decide (p.1 = c)) with
  | some p => p.2
  | none => none

/-- Re-express a row of `srcCols` under the target column list `tgt`,
padding absent columns with null (pandas label alignment). -/
def alignRow (srcCols : List String) (row : List Cell) (tgt : List String) : List Cell :=
  tgt.map (lookupCell srcCols row)

/-- Helper for `keepFirst`: retain rows not seen before, in order. -/
def keepFirstAux (seen : List (List Cell)) : List (List Cell) → List (List Cell)
  | [] => []
  | r :: rest =>
    if r ∈ seen then keepFirstAux seen rest
    else r :: keepFirstAux (r :: seen) rest

/-- Translation of pandas `drop_duplicates()`: keep the first occurrence of
each row, drop later exact duplicates. -/
def keepFirst (l : List (List Cell)) : List (List Cell) :=
  keepFirstAux [] l

theorem mem_keepFirstAux {a : List Cell} :
    ∀ (l seen : List (List Cell)), a ∈ keepFirstAux seen l ↔ a ∈ l ∧ a ∉ seen := by
  intro l
  induction l with
  | nil => simp [keepFirstAux]
  | cons r rest ih =>
    intro seen
    rw [keepFirstAux]
    by_cases hr : r ∈ seen
    · rw [if_pos hr, ih]
      by_cases ha : a = r
      · subst ha
        simp [hr]
      · simp [ha]
    · rw [if_neg hr]
      by_cases ha : a = r
      · subst ha
        simp [hr]
      · simp only [List.mem_cons, ha, false_or, ih, List.mem_cons]

theorem mem_keepFirst {a : List Cell} {l : List (List Cell)} : a ∈ keepFirst l ↔ a ∈ l := by
  rw [keepFirst, mem_keepFirstAux]
  simp

theorem keepFirstAux_nodup : ∀ (l seen : List (List Cell)), (keepFirstAux seen l).Nodup := by
  intro l
  induction l with
  | nil => simp [keepFirstAux]
  | cons r rest ih =>
    intro seen
    rw [keepFirstAux]
    by_cases hr : r ∈ seen
    · rw [if_pos hr]
      exact ih seen
    · rw [if_neg hr]
      refine List.nodup_cons.mpr ⟨?_, ih _⟩
      intro hmem
      have := (mem_keepFirstAux rest (r :: seen)).mp hmem
      simp at this

theorem keepFirst_nodup (l : List (List Cell)) : (keepFirst l).Nodup :=
  keepFirstAux_nodup l []

/-! ## Step compiler (`SQLQueryParser.parse`, `_add_step`, `_parse_union`)

The sqlparse-based clause extraction is abstracted into a `SelectClauses`
record holding what the extraction routines return; `parseSelect` embeds
the step-assembly skeleton of `SQLQueryParser.parse` (query_visualizer.py
lines 149-203) and `parseQuery` embeds `_parse_union` (lines 211-263). -/

/-- Step type tags (constants `STEP_FROM` .. `STEP_UNION` of the source). -/
inductive StepType where
  | FROM
  | JOIN
  | WHERE
  | GROUP_BY
  | HAVING
  | SELECT
  | ORDER_BY
  | UNION_INPUT
  | UNION
  deriving DecidableEq, Repr

/-- Which arm of a UNION a step belongs to (`union_side` in the source). -/
inductive Side where
  | left
  | right
  deriving DecidableEq, Repr

/-- A compiled step: its type tag, optional UNION side tag, 1-based number,
and (for JOIN steps) the right-hand table name. -/
structure Step where
  stepType : StepType
  side : Option Side := none
  number : Nat := 0
  table : Option String := none
  deriving DecidableEq, Repr

/-- One extracted JOIN clause (`_extract_joins` result entry). -/
structure JoinClause where
  joinType : String
  rightTable : String
  condition : String
  deriving DecidableEq, Repr

/-- The clauses extracted from one SELECT statement by the
`_extract_*` routines of `SQLQueryParser` (each `Option`/list is empty
exactly when the source routine found nothing and added no step). -/
structure SelectClauses where
  fromTables : List String
  joins : List JoinClause
  whereClause : Option String := none
  groupBy : Option (List String) := none
  havingClause : Option String := none
  selectCols : Option (List String) := none
  orderBy : Option (List String) := none
  deriving DecidableEq, Repr

/-- `SQLQueryParser._add_step`: append a step numbered `len(steps) + 1`. -/
def addStep (steps : List Step) (t : StepType) (tbl : Option String := none) : List Step :=
  steps ++ [{ stepType := t, side := none, number := steps.length + 1, table := tbl }]

/-- `SQLQueryParser.parse` for one SELECT statement (lines 170-203): a FROM
step only when there is at least one FROM table and no JOIN, then one JOIN
step per join in source order, then WHERE, GROUP BY, HAVING, SELECT and
ORDER BY steps, each only when its clause was extracted. -/
def parseSelect (c : SelectClauses) : List Step :=
  let s := ([] : List Step)
  let s := if c.fromTables ≠ [] ∧ c.joins = [] then addStep s .FROM else s
  let s := c.joins.foldl (fun acc j => addStep acc .JOIN (some j.rightTable)) s
  let s := match c.whereClause with
    | some _ => addStep s .WHERE
    | none => s
  let s := match c.groupBy with
    | some _ => addStep s .GROUP_BY
    | none => s
  let s := match c.havingClause with
    | some _ => addStep s .HAVING
    | none => s
  let s := match c.selectCols with
    | some _ => addStep s .SELECT
    | none => s
  match c.orderBy with
  | some _ => addStep s .ORDER_BY
  | none => s

/-- Query text at the granularity the UNION splitter sees it: a non-empty
sequence of SELECT arms separated by top-level `UNION` keywords.
`_RE_UNION_SPLIT.split(text, maxsplit=1)` cuts off the head arm and leaves
the rest (with its further `UNION`s) as a single right-hand text. -/
inductive QueryText where
  | single (c : SelectClauses)
  | union (head : SelectClauses) (tail : QueryText)
  deriving DecidableEq, Repr

/-- Number of SELECT arms of a query text. -/
def numArms : QueryText → Nat
  | .single _ => 1
  | .union _ t => 1 + numArms t

/-- Renumber steps sequentially starting above `k` (the
`step['step_number'] = len(self.steps) + 1` loop of `_parse_union`). -/
def numberFrom (k : Nat) : List Step → List Step
  | [] => []
  | s :: rest => { s with number := k + 1 } :: numberFrom (k + 1) rest

/-- `SQLQueryParser.parse` with the `_parse_union` front end (lines
156-163 and 211-263): a lone SELECT compiles directly; a UNION text is
split at the first boundary, the head arm's steps are tagged side=left,
the recursively compiled tail's steps are (re)tagged side=right, numbers
are reassigned sequentially, and one UNION combination step is appended. -/
def parseQuery : QueryText → List Step
  | .single c => parseSelect c
  | .union head tail =>
    let ls := (parseSelect head).map (fun s => { s with side := some Side.left })
    let rs := (parseQuery tail).map (fun s => { s with side := some Side.right })
    numberFrom 0 (ls ++ rs ++ [{ stepType := .UNION }])

/-! ## UNION combination step (`QueryVisualizer._execute_union_step`)

Lines 2341-2413: the two arm results are combined with
`pd.concat([left_df, right_df], ignore_index=True)` followed by
`drop_duplicates()`.  `pd.concat` aligns columns by label: the output
column list is the left columns followed by the right-only columns, and
any row missing a column gets NaN there. -/

/-- Column list produced by `pd.concat` on two frames. -/
def unionCols (l r : List String) : List String :=
  l ++ r.filter (fun c => decide (c ∉ l))

/-- The UNION combination of the two arm results (`_execute_union_step`,
concat + drop_duplicates path). -/
def unionCombine (l r : Relation) : Relation :=
  let cols := unionCols l.cols r.cols
  let allRows :=
    l.rows.map (fun row => alignRow l.cols row cols) ++
    r.rows.map (fun row => alignRow r.cols row cols)
  { cols := cols, rows := keepFirst allRows }

/-! ## Alias resolver (`QueryVisualizer._fix_join_condition_aliases`)

Lines 1732-1840.  For an `alias.column` reference whose alias is neither
the current left/right alias nor a table name, the source looks the bare
column name up in the incoming joined relation's columns: first in a map
of columns carrying a numeric `_<digits>` de-duplication suffix keyed by
their base name, then by exact name, then in a case-insensitive map built
with later columns overwriting earlier ones; if all fail it qualifies the
column with the `left_table` marker. -/

/-- Base name of a column carrying a numeric de-duplication suffix
(`'_' in c and c.split('_')[-1].isdigit()`; base is `'_'.join(parts[:-1])`). -/
def suffixBase (c : String) : Option String :=
  let parts := splitCh '_' c.data
  if parts.length ≥ 2 then
    let lastP := parts.getLastD []
    if lastP ≠ [] ∧ lastP.all Char.isDigit then
      some (String.mk (joinSep '_' parts.dropLast))
    else none
  else none

/-- Strategy-1 lookup: first column whose numeric-suffix base is `col`
(`suffix_map[col][0]`). -/
def suffixLookup (cols : List String) (col : String) : Option String :=
  cols.find? (fun c => decide (suffixBase c = some col))

/-- Strategy-3 lookup: the case-insensitive map `left_cols_lower_map`,
built by a dict comprehension so the last column with a given lowercase
form wins. -/
def lowerLookup (cols : List String) (col : String) : Option String :=
  cols.reverse.find? (fun c => decide (sToLower c = sToLower col))

/-- Resolution of one `alias.column` reference from an earlier join
against the incoming relation's columns (`_fix_join_condition_aliases`,
strategies 1-4, lines 1801-1822). -/
def fixJoinConditionAliasColumn (cols : List String) (col : String) : String :=
  match suffixLookup cols col with
  | some m => m
  | none =>
    if col ∈ cols then col
    else
      match lowerLookup cols col with
      | some m => m
      | none => "left_table." ++ col

/-! ## FROM step (`QueryVisualizer._execute_from_step`)

Lines 1557-1589: each FROM table name is looked up in the in-memory table
dict with plain `in` / `[]` (exact, case-sensitive), missing names are
silently skipped, and the first table found becomes the current relation. -/

/-- Python `tables[name]` on the table dict (exact key match). -/
def lookupTableDf (tables : List (String × Relation)) (name : String) : Option Relation :=
  (tables.find? (fun p => decide (p.1 = name))).map Prod.snd

/-- The current relation selected by the FROM step: the first named table
present in the store, `none` when no name matches exactly. -/
def executeFromStep (tables : List (String × Relation)) (names : List String) :
    Option (String × Relation) :=
  names.findSome? (fun n => (lookupTableDf tables n).map (fun r => (n, r)))

/-! ## SELECT step (`QueryVisualizer._execute_select_step`)

Lines 2189-2230: with a non-empty projection list the source evaluates
`current_df[select_cols]`, which raises when any requested column is
absent; the exception handler then returns the input table unchanged. -/

/-- Projection `current_df[select_cols]` when all columns exist. -/
def projectRel (rel : Relation) (cols : List String) : Relation :=
  { cols := cols, rows := rel.rows.map (fun row => alignRow rel.cols row cols) }

/-- Output relation of the SELECT step. -/
def executeSelectStep (rel : Relation) (cols : List String) : Relation :=
  if cols = [] then rel
  else if cols.all (fun c => decide (c ∈ rel.cols)) then projectRel rel cols
  else rel

/-! ## Aggregate extraction (`SQLQueryParser._extract_aggregates_with_aliases`)

Lines 1029-1078.  HAVING conditions are modelled at the granularity the
aggregate regular expressions see them: a list of tokens, each either one
`FUNC(col)` / `FUNC(DISTINCT col)` occurrence (with the table prefix
already stripped, as the capture group does) or a literal fragment the
aggregate patterns cannot match. -/

/-- The aggregate functions the source patterns recognize
(`SUM|COUNT|AVG|MAX|MIN`, matched case-insensitively). -/
inductive AggFunc where
  | SUM
  | COUNT
  | AVG
  | MAX
  | MIN
  deriving DecidableEq, Repr

/-- `func.lower()` for the recognized aggregate functions. -/
def AggFunc.lowerName : AggFunc → String
  | .SUM => "sum"
  | .COUNT => "count"
  | .AVG => "avg"
  | .MAX => "max"
  | .MIN => "min"

/-- One token of a HAVING condition. -/
inductive CondTok where
  | agg (f : AggFunc) (distinct : Bool) (col : String)
  | lit (s : String)
  deriving DecidableEq, Repr

/-- A HAVING condition as the aggregate patterns see it. -/
abbrev Cond := List CondTok

/-- Whether a token is an aggregate-function occurrence. -/
def CondTok.isAgg : CondTok → Bool
  | .agg _ _ _ => true
  | .lit _ => false

/-- An extracted aggregate with its compile-time output alias
(one entry of the `aggregates` list of the source). -/
structure Aggregate where
  func : AggFunc
  column : String
  outAlias : String
  distinct : Bool
  deriving DecidableEq, Repr

/-- A candidate de-duplicated alias `f"\x7bbase_alias\x7d_\x7bidx\x7d"`. -/
def aliasCandidate (base : String) (k : Nat) : String :=
  base ++ "_" ++ natDecimal k

/-- The collision-avoiding alias loop of lines 1046-1050: the base alias
itself when unused, otherwise the smallest `base_k` with `k ≥ 2` not yet
used.  The candidate range `[2, used.length + 2]` always contains a free
alias, so the fallback arm is unreachable. -/
def freshAlias (used : List String) (base : String) : String :=
  if base ∈ used then
    match ((List.range (used.length + 1)).map (fun i => i + 2)).find?
        (fun k => decide (aliasCandidate base k ∉ used)) with
    | some k => aliasCandidate base k
    | none => base
  else base

/-- All `(function, column)` aggregate occurrences of a condition, in
order (`_RE_AGG_WITH_ALIAS.findall(normalized)`). -/
def aggMatches (cond : Cond) : List (AggFunc × String) :=
  cond.filterMap (fun t =>
    match t with
    | .agg f _ c => some (f, c)
    | .lit _ => none)

/-- The DISTINCT flag recovered by the `re.search` at lines 1057-1066:
taken from the first occurrence of the function/column pair in the
condition (both matched case-insensitively), `false` when none is found. -/
def firstDistinctFlag (cond : Cond) (f : AggFunc) (c : String) : Bool :=
  match cond.find? (fun t =>
    match t with
    | .agg g _ c2 => decide (g = f ∧ sToLower c2 = sToLower c)
    | .lit _ => false) with
  | some (.agg _ d _) => d
  | _ => false

/-- The alias-assignment loop of `_extract_aggregates_with_aliases`:
walk the matches in order, give each the fresh variant of
`func.lower() ++ "_" ++ column`, and record the assigned alias as used. -/
def assignAliases (cond : Cond) : List (AggFunc × String) → List String → List Aggregate
  | [], _ => []
  | (f, c) :: rest, used =>
    let a := freshAlias used (f.lowerName ++ "_" ++ c)
    { func := f, column := c, outAlias := a, distinct := firstDistinctFlag cond f c }
      :: assignAliases cond rest (a :: used)

/-- `SQLQueryParser._extract_aggregates_with_aliases` on a condition. -/
def extractAggregatesWithAliases (cond : Cond) : List Aggregate :=
  assignAliases cond (aggMatches cond) []

/-! ## HAVING rewrite (`QueryVisualizer._execute_having_query`)

Lines 1926-1969: for each compile-time aggregate the source substitutes
every occurrence of `FUNC\s*\(\s*(?:distinct\s+)?col\s*\)` (function and
column matched case-insensitively) in the condition with the aggregate's
alias, skipping entries with an empty function, column or alias, and then
filters the already-grouped relation with the rewritten condition. -/

/-- Whether the substitution pattern built from aggregate `a` matches a
token (case-insensitive on function and column, DISTINCT optional). -/
def aggPatternHits (a : Aggregate) : CondTok → Bool
  | .agg f _ c => decide (f = a.func ∧ sToLower c = sToLower a.column)
  | .lit _ => false

/-- The alias-substitution loop of `_execute_having_query` (lines
1942-1954): each aggregate's pattern in turn replaces all of its
occurrences with the alias; entries with an empty column or alias are
skipped as in the source guard. -/
def rewriteHavingCondition (aggs : List Aggregate) (cond : Cond) : Cond :=
  match aggs with
  | [] => cond
  | a :: rest =>
    let cond2 :=
      if a.column = "" ∨ a.outAlias = "" then cond
      else cond.map (fun t => if aggPatternHits a t then .lit a.outAlias else t)
    rewriteHavingCondition rest cond2

/-! ## Whole-query executor (`QueryVisualizer.execute_query`) and the
step-by-step entry point (`execute_query_steps`)

Lines 1295-1336 and 1338-1520.  The DuckDB evaluation of one SQL string
against the registered tables is kept abstract as a parameter `evalSql`
(`none` models an evaluator exception); likewise the per-step execution
loop of `execute_query_steps` is a parameter `runSteps`, since the claims
about these entry points concern only their guard/selection logic. -/

/-- The abstract embedded relational evaluator. -/
abbrev SqlEval := String → List (String × Relation) → Option Relation

/-- A per-step visualization record (shape only). -/
structure StepRecord where
  number : Nat
  stepType : StepType
  explanation : String
  deriving DecidableEq, Repr

/-- The `mode="final"` result payload. -/
structure QueryOutput where
  columns : List String
  rows : List (List Cell)
  rowCount : Nat
  deriving DecidableEq, Repr

/-- The `mode="steps"` result payload. -/
structure StepsOutput where
  steps : List StepRecord
  finalResult : QueryOutput
  deriving DecidableEq, Repr

/-- The statement list of `execute_query` (line 1313):
`[stmt.strip() for stmt in query_text.strip().split(";") if stmt.strip()]`. -/
def statements (q : String) : List String :=
  ((splitCh ';' (pyStrip q).data).map (fun p => String.mk (trimChars p))).filter
    (fun s => decide (s ≠ ""))

/-- `_get_tables_as_dataframes`: tables of the store, skipping those with
no rows (line 1171). -/
def tablesOf (store : List (String × Relation)) : List (String × Relation) :=
  store.filter (fun p => decide (p.2.rows ≠ []))

/-- `QueryVisualizer.execute_query` (lines 1295-1336): validate the query
text, keep only the last non-empty semicolon-delimited statement, require
a non-empty table store, then run that single statement through the
evaluator. -/
def executeQuery (evalSql : SqlEval) (store : List (String × Relation)) (q : String) :
    Except String QueryOutput :=
  if pyStrip q = "" then .error "Query text must be a non-empty string"
  else
    match (statements q).getLast? with
    | none => .error "Query text must contain at least one SQL statement"
    | some s =>
      if tablesOf store = [] then .error "No tables available. Please upload data first."
      else
        match evalSql s (tablesOf store) with
        | some df => .ok { columns := df.cols, rows := df.rows, rowCount := df.rows.length }
        | none => .error "Error executing SQL query"

/-- `QueryVisualizer.execute_query_steps` (lines 1338-1520): validate the
query text; on a parser exception or an empty step list fall back to
`execute_query` alone; otherwise require a non-empty table store, run the
steps, and attach the authoritative `execute_query` result. -/
def executeQuerySteps (evalSql : SqlEval)
    (runSteps : List Step → List (String × Relation) → List StepRecord)
    (store : List (String × Relation)) (q : String) (parsed : Option (List Step)) :
    Except String StepsOutput :=
  if pyStrip q = "" then .error "Query text must be a non-empty string"
  else
    match parsed with
    | none =>
      match executeQuery evalSql store q with
      | .ok fr => .ok { steps := [], finalResult := fr }
      | .error m => .error m
    | some [] =>
      match executeQuery evalSql store q with
      | .ok fr => .ok { steps := [], finalResult := fr }
      | .error m => .error m
    | some steps =>
      if tablesOf store = [] then .error "No tables available. Please upload data first."
      else
        let recs := runSteps steps (tablesOf store)
        match executeQuery evalSql store q with
        | .ok fr => .ok { steps := recs, finalResult := fr }
        | .error m => .error ("Error executing query: " ++ m)

/-! ## Lemmas about the step-assembly skeleton -/

/-- The step-type tag contributed by an optional clause. -/
def optTag {α : Type} (o : Option α) (t : StepType) : List StepType :=
  match o with
  | some _ => [t]
  | none => []

theorem mem_optTag {α : Type} {o : Option α} {t x : StepType} (h : x ∈ optTag o t) : x = t := by
  cases o with
  | none => simp [optTag] at h
  | some a => simpa [optTag] using h

theorem addStep_map_stepType (s : List Step) (t : StepType) (tbl : Option String) :
    (addStep s t tbl).map Step.stepType = s.map Step.stepType ++ [t] := by
  simp [addStep]

theorem foldl_addStep_join_map (js : List JoinClause) (s : List Step) :
    ((js.foldl (fun acc j => addStep acc .JOIN (some j.rightTable)) s).map Step.stepType) =
      s.map Step.stepType ++ List.replicate js.length StepType.JOIN := by
  induction js generalizing s with
  | nil => simp
  | cons j rest ih =>
    simp only [List.foldl_cons, ih, addStep_map_stepType, List.length_cons,
      List.replicate_succ, List.append_assoc, List.singleton_append]

/-- Canonical step-type order of the single-statement compiler: an
optional FROM step (present exactly when there are FROM tables and no
JOIN), one JOIN step per join, then the optional WHERE, GROUP BY, HAVING,
SELECT and ORDER BY steps. -/
theorem parseSelect_map_stepType (c : SelectClauses) :
    (parseSelect c).map Step.stepType =
      (if c.fromTables ≠ [] ∧ c.joins = [] then [StepType.FROM] else [])
      ++ List.replicate c.joins.length StepType.JOIN
      ++ optTag c.whereClause .WHERE
      ++ optTag c.groupBy .GROUP_BY
      ++ optTag c.havingClause .HAVING
      ++ optTag c.selectCols .SELECT
      ++ optTag c.orderBy .ORDER_BY := by
  rcases c with ⟨ft, js, w, g, hv, sc, ob⟩
  simp only [parseSelect]
  by_cases hif : ft ≠ [] ∧ js = [] <;>
    cases w <;> cases g <;> cases hv <;> cases sc <;> cases ob <;>
      simp [hif, optTag, foldl_addStep_join_map, addStep_map_stepType, List.append_assoc]

/-- The right-hand table recorded on a JOIN step, nothing on others. -/
def stepJoinTable (s : Step) : Option String :=
  if s.stepType = StepType.JOIN then s.table else none

theorem filterMap_addStep_other (s : List Step) (t : StepType) (tbl : Option String)
    (h : t ≠ StepType.JOIN) :
    (addStep s t tbl).filterMap stepJoinTable = s.filterMap stepJoinTable := by
  simp [addStep, stepJoinTable, h]

theorem foldl_addStep_join_tables (js : List JoinClause) (s : List Step) :
    ((js.foldl (fun acc j => addStep acc .JOIN (some j.rightTable)) s).filterMap stepJoinTable) =
      s.filterMap stepJoinTable ++ js.map JoinClause.rightTable := by
  induction js generalizing s with
  | nil => simp
  | cons j rest ih =>
    simp only [List.foldl_cons, ih, List.map_cons]
    simp [addStep, stepJoinTable, List.append_assoc]

/-- The JOIN steps of one compiled statement carry the joins' right-hand
tables in source order. -/
theorem parseSelect_join_tables (c : SelectClauses) :
    (parseSelect c).filterMap stepJoinTable = c.joins.map JoinClause.rightTable := by
  rcases c with ⟨ft, js, w, g, hv, sc, ob⟩
  simp only [parseSelect]
  by_cases hif : ft ≠ [] ∧ js = [] <;>
    cases w <;> cases g <;> cases hv <;> cases sc <;> cases ob <;>
      simp [hif, foldl_addStep_join_tables, filterMap_addStep_other]

/-- C1 counterexample input: a query with a FROM clause and one JOIN. -/
def cexC1 : SelectClauses :=
  { fromTables := ["maintenance_types"]
    joins := [{ joinType := "INNER", rightTable := "machine", condition := "m.mid = t.mid" }]
    selectCols := some ["mid"] }

/-- C1 counterexample: for a query with a FROM clause and a JOIN clause the
compiled pipeline starts with the JOIN step and contains no FROM step at
all, contradicting the claim that a From step is present first whenever a
FROM clause exists, including for queries that contain JOIN clauses. -/
theorem parse_from_step_cex :
    cexC1.fromTables ≠ [] ∧
    StepType.FROM ∉ (parseSelect cexC1).map Step.stepType ∧
    (parseSelect cexC1).map Step.stepType = [StepType.JOIN, StepType.SELECT] := by decide

/-- C1 (amended): the compiled step_type order is exactly
`From?, Join*, Where?, GroupBy?, Having?, Select?, OrderBy?` with the
joins in source order, but the From step is present only when the
statement has FROM tables and *no* JOIN clause; with JOINs present the
pipeline starts directly at the first Join step. -/
theorem parseSelect_canonical_order (c : SelectClauses) :
    (parseSelect c).map Step.stepType =
      (if c.fromTables ≠ [] ∧ c.joins = [] then [StepType.FROM] else [])
      ++ List.replicate c.joins.length StepType.JOIN
      ++ optTag c.whereClause .WHERE
      ++ optTag c.groupBy .GROUP_BY
      ++ optTag c.havingClause .HAVING
      ++ optTag c.selectCols .SELECT
      ++ optTag c.orderBy .ORDER_BY ∧
    (parseSelect c).filterMap stepJoinTable = c.joins.map JoinClause.rightTable :=
  ⟨parseSelect_map_stepType c, parseSelect_join_tables c⟩

/-! ## Lemmas about the union splitter -/

theorem parseSelect_stepType_ne_union (c : SelectClauses) :
    ∀ s ∈ parseSelect c, s.stepType ≠ StepType.UNION := by
  intro s hs
  have hmem : s.stepType ∈ (parseSelect c).map Step.stepType := List.mem_map_of_mem _ hs
  rw [parseSelect_map_stepType] at hmem
  simp only [List.mem_append] at hmem
  rcases hmem with ((((((h | h) | h) | h) | h) | h) | h)
  · intro hU
    rw [hU] at h
    split at h <;> simp at h
  · intro hU
    rw [hU] at h
    have := List.eq_of_mem_replicate h
    exact absurd this (by decide)
  all_goals
    intro hU
    rw [hU] at h
    exact absurd (mem_optTag h) (by decide)

theorem parseSelect_countP_union (c : SelectClauses) :
    (parseSelect c).countP (fun s => decide (s.stepType = StepType.UNION)) = 0 := by
  rw [List.countP_eq_zero]
  intro s hs
  simpa using parseSelect_stepType_ne_union c s hs

theorem countP_union_map_side (l : List Step) (sd : Side) :
    ((l.map (fun s => { s with side := some sd })).countP
      (fun s => decide (s.stepType = StepType.UNION))) =
      l.countP (fun s => decide (s.stepType = StepType.UNION)) := by
  induction l with
  | nil => rfl
  | cons a t ih => simp [List.countP_cons, ih]

theorem countP_union_numberFrom (l : List Step) (k : Nat) :
    ((numberFrom k l).countP (fun s => decide (s.stepType = StepType.UNION))) =
      l.countP (fun s => decide (s.stepType = StepType.UNION)) := by
  induction l generalizing k with
  | nil => rfl
  | cons a t ih => simp [numberFrom, List.countP_cons, ih]

/-- C3 (amended): a query text with any number of UNION-separated arms
compiles without failing: the splitter cuts off the first arm and
recursively compiles the tail, so a text with `n` arms yields a pipeline
containing exactly `n - 1` UNION combination steps (nested compilation),
rather than a parse error. -/
theorem parseQuery_union_step_count (q : QueryText) :
    (parseQuery q).countP (fun s => decide (s.stepType = StepType.UNION)) + 1 = numArms q := by
  induction q with
  | single c =>
    simp [parseQuery, numArms, parseSelect_countP_union]
  | union head tail ih =>
    simp only [parseQuery, numArms, countP_union_numberFrom, List.countP_append,
      countP_union_map_side, parseSelect_countP_union]
    simp only [List.countP_cons, List.countP_nil]
    simp only [decide_true_eq_true, decide_True, if_true]
    omega

/-- C3 counterexample input: three SELECT arms joined by two UNIONs. -/
def cexC3 : QueryText :=
  .union { fromTables := ["customer"], joins := [], selectCols := some ["cid"] }
    (.union { fromTables := ["customer"], joins := [], selectCols := some ["cid"] }
      (.single { fromTables := ["customer"], joins := [], selectCols := some ["cid"] }))

/-- C3 counterexample: a query text with more than one top-level UNION
boundary (three arms) is compiled into a non-empty step pipeline with two
UNION combination steps instead of failing fast with a parse error. -/
theorem parseUnion_multi_arm_cex :
    numArms cexC3 = 3 ∧
    parseQuery cexC3 ≠ [] ∧
    (parseQuery cexC3).countP (fun s => decide (s.stepType = StepType.UNION)) = 2 ∧
    (parseQuery cexC3).map Step.stepType =
      [.FROM, .SELECT, .FROM, .SELECT, .FROM, .SELECT, .UNION, .UNION] := by decide

/-! ## C2: UNION combination on mismatched arms -/

/-- C2 counterexample input: left arm with one column. -/
def cexUnionLeft : Relation := { cols := ["fsid"], rows := [[some (.strV "b1")]] }

/-- C2 counterexample input: right arm with two columns. -/
def cexUnionRight : Relation :=
  { cols := ["fsid", "balance"], rows := [[some (.strV "b2"), some (.intV 64000)]] }

/-- C2 counterexample: when the two arm results disagree in column count
the UNION combination step does not fail; it produces a combined output
whose columns are the union of both arms' columns, padding the narrower
arm's rows with null, contradicting the claimed hard column-count-mismatch
error. -/
theorem unionCombine_mismatch_cex :
    cexUnionLeft.cols.length ≠ cexUnionRight.cols.length ∧
    unionCombine cexUnionLeft cexUnionRight =
      { cols := ["fsid", "balance"]
        rows := [[some (.strV "b1"), none], [some (.strV "b2"), some (.intV 64000)]] } ∧
    (unionCombine cexUnionLeft cexUnionRight).rows ≠ [] := by decide

/-- C2 (amended): the UNION combination step always succeeds, also when
the arms' column counts differ: the output columns are the left arm's
columns followed by the right-only columns, every arm row appears aligned
to that column list (with null padding for columns an arm lacks), and
exact-duplicate rows are removed (the output row list has no duplicates
and contains exactly the aligned arm rows). -/
theorem unionCombine_pads_and_dedups (l r : Relation) :
    (unionCombine l r).cols = l.cols ++ r.cols.filter (fun c => decide (c ∉ l.cols)) ∧
    (unionCombine l r).rows.Nodup ∧
    (∀ row, row ∈ (unionCombine l r).rows ↔
      ((∃ w ∈ l.rows, row = alignRow l.cols w (unionCols l.cols r.cols)) ∨
       (∃ w ∈ r.rows, row = alignRow r.cols w (unionCols l.cols r.cols)))) := by
  refine ⟨rfl, keepFirst_nodup _, ?_⟩
  intro row
  simp only [unionCombine, mem_keepFirst, List.mem_append, List.mem_map]
  constructor
  · rintro (⟨w, hw, he⟩ | ⟨w, hw, he⟩)
    · exact Or.inl ⟨w, hw, he.symm⟩
    · exact Or.inr ⟨w, hw, he.symm⟩
  · rintro (⟨w, hw, he⟩ | ⟨w, hw, he⟩)
    · exact Or.inl ⟨w, hw, he.symm⟩
    · exact Or.inr ⟨w, hw, he.symm⟩

/-! ## C4: alias-resolution priority order -/

/-- C4 counterexample: with both `pnumber` and its de-duplicated variant
`pnumber_2` present in the incoming relation, the resolver picks the
suffix-carrying column even though an exact match exists, contradicting
the claimed exact-first priority order. -/
theorem fixJoinAlias_priority_cex :
    "pnumber" ∈ ["pnumber", "pnumber_2"] ∧
    fixJoinConditionAliasColumn ["pnumber", "pnumber_2"] "pnumber" = "pnumber_2" ∧
    "pnumber_2" ≠ "pnumber" := by decide

/-- C4 (amended): the resolver tries the numeric-de-duplication-suffix
match first, then the exact column-name match, then the case-insensitive
match, in that priority order, and only when all three fail does it fall
back to qualifying the column with the left-hand marker. -/
theorem fixJoinAlias_resolution_order (cols : List String) (col : String) :
    ((∃ c ∈ cols, suffixBase c = some col) →
      fixJoinConditionAliasColumn cols col ∈ cols ∧
      suffixBase (fixJoinConditionAliasColumn cols col) = some col) ∧
    ((∀ c ∈ cols, suffixBase c ≠ some col) → col ∈ cols →
      fixJoinConditionAliasColumn cols col = col) ∧
    ((∀ c ∈ cols, suffixBase c ≠ some col) → col ∉ cols →
      (∃ c ∈ cols, sToLower c = sToLower col) →
      fixJoinConditionAliasColumn cols col ∈ cols ∧
      sToLower (fixJoinConditionAliasColumn cols col) = sToLower col) ∧
    ((∀ c ∈ cols, suffixBase c ≠ some col) → col ∉ cols →
      (∀ c ∈ cols, sToLower c ≠ sToLower col) →
      fixJoinConditionAliasColumn cols col = "left_table." ++ col) := by
  have hsuffix_none : (∀ c ∈ cols, suffixBase c ≠ some col) → suffixLookup cols col = none := by
    intro h
    rw [suffixLookup, List.find?_eq_none]
    intro c hc
    simpa using h c hc
  have hlower_none : (∀ c ∈ cols, sToLower c ≠ sToLower col) → lowerLookup cols col = none := by
    intro h
    rw [lowerLookup, List.find?_eq_none]
    intro c hc
    simpa using h c (List.mem_reverse.mp hc)
  refine ⟨?_, ?_, ?_, ?_⟩
  · intro hex
    have hne : suffixLookup cols col ≠ none := by
      intro hnone
      rw [suffixLookup, List.find?_eq_none] at hnone
      rcases hex with ⟨c, hc, hb⟩
      exact absurd (by simpa using hnone c hc) (by simp [hb])
    rcases Option.ne_none_iff_exists.mp hne with ⟨m, hm⟩
    have hm' : suffixLookup cols col = some m := hm.symm
    have hmem : m ∈ cols := List.mem_of_find?_eq_some hm'
    have hpred : suffixBase m = some col := by
      have := List.find?_some hm'
      simpa using this
    rw [fixJoinConditionAliasColumn, hm']
    exact ⟨hmem, hpred⟩
  · intro hno hmem
    rw [fixJoinConditionAliasColumn, hsuffix_none hno, if_pos hmem]
  · intro hno hnot hex
    have hne : lowerLookup cols col ≠ none := by
      intro hnone
      rw [lowerLookup, List.find?_eq_none] at hnone
      rcases hex with ⟨c, hc, hb⟩
      exact absurd (by simpa using hnone c (List.mem_reverse.mpr hc)) (by simp [hb])
    rcases Option.ne_none_iff_exists.mp hne with ⟨m, hm⟩
    have hm' : lowerLookup cols col = some m := hm.symm
    have hmem : m ∈ cols := List.mem_reverse.mp (List.mem_of_find?_eq_some hm')
    have hpred : sToLower m = sToLower col := by
      have := List.find?_some hm'
      simpa using this
    rw [fixJoinConditionAliasColumn, hsuffix_none hno, if_neg hnot, hm']
    exact ⟨hmem, hpred⟩
  · intro hno hnot hnolower
    rw [fixJoinConditionAliasColumn, hsuffix_none hno, if_neg hnot, hlower_none hnolower]

/-- C4 witness: the amended priority theorem applied at a concrete input
where only the exact match succeeds. -/
theorem fixJoinAlias_resolution_order_witness :
    fixJoinConditionAliasColumn ["company"] "company" = "company" :=
  (fixJoinAlias_resolution_order ["company"] "company").2.1 (by decide) (by decide)

/-! ## C7: FROM-step table lookup -/

/-- C7 counterexample input: the single stored table. -/
def cexStoreRel : Relation := { cols := ["cid"], rows := [[some (.strV "bank1")]] }

/-- C7 counterexample: a table loaded under `Customer` is not found by a
FROM clause written `customer`, although the two names differ only in
letter case, contradicting the claimed case-insensitive name match: the
FROM step's lookup is an exact dict-key test. -/
theorem from_step_case_sensitive_cex :
    executeFromStep [("Customer", cexStoreRel)] ["customer"] = none ∧
    sToLower "Customer" = sToLower "customer" := by decide

/-- C7 (amended): the FROM step matches table names exactly
(case-sensitively): whatever relation it selects is stored under exactly
the queried name, and when no queried name has an exact-case key in the
store the step selects nothing, even if case-insensitive matches exist. -/
theorem from_step_exact_lookup (tables : List (String × Relation)) (names : List String) :
    (∀ n r, executeFromStep tables names = some (n, r) →
      n ∈ names ∧ lookupTableDf tables n = some r) ∧
    ((∀ n ∈ names, ∀ p ∈ tables, p.1 ≠ n) → executeFromStep tables names = none) := by
  constructor
  · intro n r h
    rcases List.exists_of_findSome?_eq_some h with ⟨m, hm, he⟩
    rcases Option.map_eq_some'.mp he with ⟨r2, hr2, heq⟩
    have hn : m = n := congrArg Prod.fst heq
    have hr : r2 = r := congrArg Prod.snd heq
    subst hn hr
    exact ⟨hm, hr2⟩
  · intro h
    rw [executeFromStep, List.findSome?_eq_none_iff]
    intro n hn
    have : lookupTableDf tables n = none := by
      rw [lookupTableDf]
      have : tables.find? (fun p => decide (p.1 = n)) = none := by
        rw [List.find?_eq_none]
        intro p hp
        simpa using h n hn p hp
      rw [this]
      rfl
    rw [this]
    rfl

/-- C7 witness: the amended lookup theorem applied to a store holding only
`Customer` and a FROM list naming `orders`. -/
theorem from_step_exact_lookup_witness :
    executeFromStep [("Customer", cexStoreRel)] ["orders"] = none :=
  (from_step_exact_lookup [("Customer", cexStoreRel)] ["orders"]).2 (by decide)

/-! ## C8: SELECT-step projection on unresolved columns -/

/-- C8 counterexample input: incoming relation with two columns. -/
def cexSelectRel : Relation :=
  { cols := ["cid", "company"], rows := [[some (.strV "bank1"), some (.strV "Acme")]] }

/-- C8 counterexample: projecting `cid, location` where `location` does
not exist returns the input relation unchanged (both original columns
survive), not a projection to the resolvable column `cid` with the
unresolved one dropped. -/
theorem select_step_unresolved_cex :
    "location" ∉ cexSelectRel.cols ∧
    executeSelectStep cexSelectRel ["cid", "location"] = cexSelectRel ∧
    (executeSelectStep cexSelectRel ["cid", "location"]).cols ≠ ["cid"] := by decide

/-- C8 (amended): the SELECT step is all-or-nothing: when every projected
column exists in the incoming relation it projects them; when any
projected column is missing it returns the incoming relation unchanged
(no column is dropped individually and no error is raised); an empty
projection list is a no-op. -/
theorem select_step_all_or_nothing (rel : Relation) (cols : List String) :
    (cols ≠ [] → (∀ c ∈ cols, c ∈ rel.cols) →
      executeSelectStep rel cols = projectRel rel cols) ∧
    ((∃ c ∈ cols, c ∉ rel.cols) → executeSelectStep rel cols = rel) ∧
    (cols = [] → executeSelectStep rel cols = rel) := by
  refine ⟨?_, ?_, ?_⟩
  · intro hne hall
    rw [executeSelectStep, if_neg hne, if_pos]
    rw [List.all_eq_true]
    intro c hc
    simpa using hall c hc
  · rintro ⟨c, hc, hnot⟩
    have hne : cols ≠ [] := by
      intro h
      rw [h] at hc
      simp at hc
    rw [executeSelectStep, if_neg hne, if_neg]
    rw [List.all_eq_true]
    intro hall
    exact hnot (by simpa using hall c hc)
  · intro h
    rw [executeSelectStep, if_pos h]

/-- C8 witness: the amended theorem applied where all requested columns
resolve, so the projection actually happens. -/
theorem select_step_all_or_nothing_witness :
    executeSelectStep cexSelectRel ["cid"] = projectRel cexSelectRel ["cid"] :=
  (select_step_all_or_nothing cexSelectRel ["cid"]).1 (by decide) (by decide)

/-! ## C9: only the last non-empty statement is executed -/

/-- C9: with a multi-statement input whose non-empty statements end in
`s`, the whole-query executor's result is exactly the evaluator's result
on `s` alone against the loaded tables; the earlier statements never
influence the outcome (the equation holds for every evaluator). -/
theorem executeQuery_runs_last_statement (evalSql : SqlEval)
    (store : List (String × Relation)) (q : String) (l : List String) (s : String)
    (h : statements q = l ++ [s]) (ht : tablesOf store ≠ []) :
    executeQuery evalSql store q =
      match evalSql s (tablesOf store) with
      | some df => .ok { columns := df.cols, rows := df.rows, rowCount := df.rows.length }
      | none => .error "Error executing SQL query" := by
  have hne : pyStrip q ≠ "" := by
    intro h0
    have hempty : statements q = [] := by
      unfold statements
      rw [h0]
      decide
    rw [hempty] at h
    exact absurd h (by simp)
  have hlast : (statements q).getLast? = some s := by
    rw [h]
    simp
  rw [executeQuery, if_neg hne, hlast]
  dsimp only
  rw [if_neg ht]

/-- C9 witness store: one loaded table with one row. -/
def cexStoreC9 : List (String × Relation) :=
  [("t", { cols := ["x"], rows := [[some (.intV 1)]] })]

/-- C9 witness evaluator: records which statement it was given. -/
def evalSqlC9 : SqlEval := fun s _ => some { cols := [s], rows := [] }

/-- C9 witness: on the two-statement input only `SELECT 2` reaches the
evaluator. -/
theorem executeQuery_runs_last_statement_witness :
    executeQuery evalSqlC9 cexStoreC9 "SELECT 1; SELECT 2" =
      .ok { columns := ["SELECT 2"], rows := [], rowCount := 0 } := by
  rw [executeQuery_runs_last_statement evalSqlC9 cexStoreC9 "SELECT 1; SELECT 2"
    ["SELECT 1"] "SELECT 2" (by decide) (by decide)]
  rfl

/-! ## C10: guards of both public entry points on an empty store -/

/-- C10: when the table store holds no (non-empty) tables, both the
whole-query path and the step-by-step path return an error for every
evaluator and step runner — so no SQL execution can contribute to the
outcome and no partial payload is produced — and the whole-query path
errors on blank query text regardless of the store. -/
theorem empty_store_guards (evalSql : SqlEval)
    (runSteps : List Step → List (String × Relation) → List StepRecord)
    (store : List (String × Relation)) (q : String) (parsed : Option (List Step))
    (h : tablesOf store = []) :
    (∃ m, executeQuery evalSql store q = .error m) ∧
    (∃ m, executeQuerySteps evalSql runSteps store q parsed = .error m) ∧
    (∀ q2, pyStrip q2 = "" →
      executeQuery evalSql store q2 = .error "Query text must be a non-empty string") := by
  have hq : ∃ m, executeQuery evalSql store q = .error m := by
    rw [executeQuery]
    by_cases h0 : pyStrip q = ""
    · rw [if_pos h0]
      exact ⟨_, rfl⟩
    · rw [if_neg h0]
      match hl : (statements q).getLast? with
      | none => exact ⟨_, rfl⟩
      | some s =>
        dsimp only
        rw [if_pos h]
        exact ⟨_, rfl⟩
  refine ⟨hq, ?_, ?_⟩
  · rw [executeQuerySteps.eq_def]
    by_cases h0 : pyStrip q = ""
    · rw [if_pos h0]
      exact ⟨_, rfl⟩
    · rw [if_neg h0]
      rcases hq with ⟨m, hm⟩
      match parsed with
      | none =>
        dsimp only
        rw [hm]
        exact ⟨m, rfl⟩
      | some [] =>
        dsimp only
        rw [hm]
        exact ⟨m, rfl⟩
      | some (st :: rest) =>
        dsimp only
        rw [if_pos h]
        exact ⟨_, rfl⟩
  · intro q2 h0
    rw [executeQuery, if_pos h0]

/-- C10 witness: the guard theorem applied to the empty store with a
concrete query, evaluator, step runner and parsed pipeline. -/
theorem empty_store_guards_witness :
    (∃ m, executeQuery (fun _ _ => none) [] "SELECT 1" = .error m) ∧
    (∃ m, executeQuerySteps (fun _ _ => none) (fun _ _ => [])
      [] "SELECT 1" (some [{ stepType := .SELECT }]) = .error m) ∧
    (∀ q2, pyStrip q2 = "" →
      executeQuery (fun _ _ => none) [] q2 =
        .error "Query text must be a non-empty string") :=
  empty_store_guards (fun _ _ => none) (fun _ _ => [])
    [] "SELECT 1" (some [{ stepType := .SELECT }]) (by decide)

/-! ## Lemmas about alias freshness (for C5 and C6) -/

theorem append_underscore_ne_empty (s t : String) : s ++ "_" ++ t ≠ "" := by
  intro h
  have hd := congrArg String.data h
  simp only [String.data_append] at hd
  simp at hd

theorem aliasCandidate_inj (base : String) {j k : Nat}
    (h : aliasCandidate base j = aliasCandidate base k) : j = k := by
  have hd := congrArg String.data h
  simp only [aliasCandidate, String.data_append] at hd
  have h2 : (natDecimal j).data = (natDecimal k).data := List.append_cancel_left hd
  exact natDecimal_inj (String.ext h2)

theorem aliasCandidate_ne_empty (base : String) (k : Nat) : aliasCandidate base k ≠ "" :=
  append_underscore_ne_empty base (natDecimal k)

theorem freshAlias_not_mem (used : List String) (base : String) :
    freshAlias used base ∉ used := by
  rw [freshAlias]
  by_cases hbase : base ∈ used
  · rw [if_pos hbase]
    cases hfind : ((List.range (used.length + 1)).map (fun i => i + 2)).find?
        (fun k => decide (aliasCandidate base k ∉ used)) with
    | some k =>
      have := List.find?_some hfind
      simpa using this
    | none =>
      exfalso
      have hall : ∀ k ∈ (List.range (used.length + 1)).map (fun i => i + 2),
          aliasCandidate base k ∈ used := by
        intro k hk
        have := List.find?_eq_none.mp hfind k hk
        simpa using this
      have hsub : (((List.range (used.length + 1)).map (fun i => i + 2)).map
          (aliasCandidate base)) ⊆ used := by
        intro x hx
        rcases List.mem_map.mp hx with ⟨k, hk, he⟩
        rw [← he]
        exact hall k hk
      have hnodup : (((List.range (used.length + 1)).map (fun i => i + 2)).map
          (aliasCandidate base)).Nodup := by
        refine List.Nodup.map (fun a b hab => aliasCandidate_inj base hab) ?_
        refine List.Nodup.map (fun a b hab => by omega) ?_
        exact List.nodup_range _
      have hlen := (hnodup.subperm hsub).length_le
      simp at hlen
  · rw [if_neg hbase]
    exact hbase

theorem freshAlias_shape (used : List String) (base : String) :
    freshAlias used base = base ∨
      ∃ k, 2 ≤ k ∧ freshAlias used base = aliasCandidate base k := by
  rw [freshAlias]
  by_cases hbase : base ∈ used
  · rw [if_pos hbase]
    cases hfind : ((List.range (used.length + 1)).map (fun i => i + 2)).find?
        (fun k => decide (aliasCandidate base k ∉ used)) with
    | some k =>
      right
      refine ⟨k, ?_, rfl⟩
      have hk := List.mem_of_find?_eq_some hfind
      rcases List.mem_map.mp hk with ⟨i, _, he⟩
      omega
    | none => left; rfl
  · rw [if_neg hbase]
    left
    rfl

theorem freshAlias_ne_empty (used : List String) (base : String) (hb : base ≠ "") :
    freshAlias used base ≠ "" := by
  rcases freshAlias_shape used base with h | ⟨k, _, h⟩
  · rw [h]; exact hb
  · rw [h]; exact aliasCandidate_ne_empty base k

/-! ## Lemmas about the alias-assignment loop (for C5 and C6) -/

theorem assignAliases_outAlias_not_mem (cond : Cond) :
    ∀ (ms : List (AggFunc × String)) (used : List String),
      ∀ a ∈ assignAliases cond ms used, a.outAlias ∉ used := by
  intro ms
  induction ms with
  | nil => intro used a ha; simp [assignAliases] at ha
  | cons p rest ih =>
    rcases p with ⟨f, c⟩
    intro used a ha
    rw [assignAliases] at ha
    rcases List.mem_cons.mp ha with h | h
    · rw [h]
      exact freshAlias_not_mem used _
    · intro hmem
      exact ih _ a h (List.mem_cons_of_mem _ hmem)

theorem assignAliases_nodup (cond : Cond) :
    ∀ (ms : List (AggFunc × String)) (used : List String),
      ((assignAliases cond ms used).map Aggregate.outAlias).Nodup := by
  intro ms
  induction ms with
  | nil => intro used; simp [assignAliases]
  | cons p rest ih =>
    rcases p with ⟨f, c⟩
    intro used
    rw [assignAliases]
    simp only [List.map_cons]
    refine List.nodup_cons.mpr ⟨?_, ih _⟩
    intro hmem
    rcases List.mem_map.mp hmem with ⟨a, ha, he⟩
    have := assignAliases_outAlias_not_mem cond rest _ a ha
    rw [he] at this
    exact this (List.mem_cons_self _ _)

theorem assignAliases_shape (cond : Cond) :
    ∀ (ms : List (AggFunc × String)) (used : List String),
      ∀ a ∈ assignAliases cond ms used,
        a.outAlias = a.func.lowerName ++ "_" ++ a.column ∨
        ∃ k, 2 ≤ k ∧
          a.outAlias = (a.func.lowerName ++ "_" ++ a.column) ++ "_" ++ natDecimal k := by
  intro ms
  induction ms with
  | nil => intro used a ha; simp [assignAliases] at ha
  | cons p rest ih =>
    rcases p with ⟨f, c⟩
    intro used a ha
    rw [assignAliases] at ha
    rcases List.mem_cons.mp ha with h | h
    · rw [h]
      exact freshAlias_shape used (f.lowerName ++ "_" ++ c)
    · exact ih _ a h

theorem assignAliases_pairs (cond : Cond) :
    ∀ (ms : List (AggFunc × String)) (used : List String),
      ∀ p ∈ ms, ∃ a ∈ assignAliases cond ms used, a.func = p.1 ∧ a.column = p.2 := by
  intro ms
  induction ms with
  | nil => intro used p hp; simp at hp
  | cons q rest ih =>
    rcases q with ⟨f, c⟩
    intro used p hp
    rw [assignAliases]
    rcases List.mem_cons.mp hp with h | h
    · exact ⟨_, List.mem_cons_self _ _, by rw [h], by rw [h]⟩
    · rcases ih _ p h with ⟨a, ha, hfu, hco⟩
      exact ⟨a, List.mem_cons_of_mem _ ha, hfu, hco⟩

theorem assignAliases_ne_empty (cond : Cond) :
    ∀ (ms : List (AggFunc × String)) (used : List String),
      ∀ a ∈ assignAliases cond ms used, a.outAlias ≠ "" := by
  intro ms
  induction ms with
  | nil => intro used a ha; simp [assignAliases] at ha
  | cons p rest ih =>
    rcases p with ⟨f, c⟩
    intro used a ha
    rw [assignAliases] at ha
    rcases List.mem_cons.mp ha with h | h
    · rw [h]
      exact freshAlias_ne_empty used _ (append_underscore_ne_empty _ _)
    · exact ih _ a h

theorem assignAliases_base_when_nodup (cond : Cond) :
    ∀ (ms : List (AggFunc × String)) (used : List String),
      ((ms.map (fun p => p.1.lowerName ++ "_" ++ p.2)).Nodup) →
      (∀ b ∈ ms.map (fun p => p.1.lowerName ++ "_" ++ p.2), b ∉ used) →
      ∀ a ∈ assignAliases cond ms used,
        a.outAlias = a.func.lowerName ++ "_" ++ a.column := by
  intro ms
  induction ms with
  | nil => intro used _ _ a ha; simp [assignAliases] at ha
  | cons p rest ih =>
    rcases p with ⟨f, c⟩
    intro used hnodup hnot a ha
    have hbase : (f.lowerName ++ "_" ++ c) ∉ used := hnot _ (by simp)
    have hfresh : freshAlias used (f.lowerName ++ "_" ++ c) = f.lowerName ++ "_" ++ c := by
      rw [freshAlias, if_neg hbase]
    rw [assignAliases] at ha
    rcases List.mem_cons.mp ha with h | h
    · rw [h]
      simpa using hfresh
    · simp only [List.map_cons, List.nodup_cons] at hnodup
      refine ih _ hnodup.2 ?_ a h
      intro b hb hbmem
      rw [hfresh] at hbmem
      rcases List.mem_cons.mp hbmem with hb2 | hb2
      · exact hnodup.1 (hb2 ▸ hb)
      · exact hnot b (by simp [hb]) hb2

/-- C6 witness input: a HAVING condition with two distinct aggregates. -/
def cexC6cond : Cond :=
  [.agg .MIN false "frequency", .lit "-", .agg .MAX false "frequency", .lit ">= 16"]

/-- C6: every extracted aggregate's alias is the deterministic
`<function>_<column>` base (function name lower-cased) or that base with a
numeric suffix `_k`, `k ≥ 2`; all aliases within one statement are
pairwise distinct; and when no two aggregates share a base alias each
aggregate receives exactly its base alias. -/
theorem aggregate_alias_assignment (cond : Cond) :
    (((extractAggregatesWithAliases cond).map Aggregate.outAlias).Nodup) ∧
    (∀ a ∈ extractAggregatesWithAliases cond,
      a.outAlias = a.func.lowerName ++ "_" ++ a.column ∨
      ∃ k, 2 ≤ k ∧
        a.outAlias = (a.func.lowerName ++ "_" ++ a.column) ++ "_" ++ natDecimal k) ∧
    (((aggMatches cond).map (fun p => p.1.lowerName ++ "_" ++ p.2)).Nodup →
      ∀ a ∈ extractAggregatesWithAliases cond,
        a.outAlias = a.func.lowerName ++ "_" ++ a.column) := by
  refine ⟨assignAliases_nodup cond _ _, assignAliases_shape cond _ _, ?_⟩
  intro hnodup
  exact assignAliases_base_when_nodup cond _ [] hnodup (by simp)

/-- C6 witness: the alias theorem applied to a concrete HAVING condition
with `MIN(frequency)` and `MAX(frequency)`. -/
theorem aggregate_alias_assignment_witness :
    (((extractAggregatesWithAliases cexC6cond).map Aggregate.outAlias).Nodup) ∧
    (∀ a ∈ extractAggregatesWithAliases cexC6cond,
      a.outAlias = a.func.lowerName ++ "_" ++ a.column) :=
  ⟨(aggregate_alias_assignment cexC6cond).1,
    (aggregate_alias_assignment cexC6cond).2.2 (by decide)⟩

/-! ## C5: the HAVING rewrite replaces every aggregate occurrence -/

/-- Whether every aggregate token of a condition names a non-empty column
(guaranteed for conditions produced by the extraction regexes, whose
column capture group is `\w+`). -/
def condAggColsNonempty (cond : Cond) : Bool :=
  cond.all (fun t =>
    match t with
    | .agg _ _ c => decide (c ≠ "")
    | .lit _ => true)

/-- Whether a condition still contains an aggregate-function occurrence. -/
def hasAggTok (cond : Cond) : Bool :=
  cond.any CondTok.isAgg

theorem rewriteHaving_preserve :
    ∀ (aggs : List Aggregate) (cond : Cond) (t : CondTok),
      t ∈ rewriteHavingCondition aggs cond → t.isAgg = true →
      t ∈ cond ∧ ∀ a ∈ aggs, a.column ≠ "" → a.outAlias ≠ "" →
        aggPatternHits a t = false := by
  intro aggs
  induction aggs with
  | nil =>
    intro cond t ht _
    refine ⟨by simpa [rewriteHavingCondition] using ht, ?_⟩
    intro a ha
    simp at ha
  | cons a rest ih =>
    intro cond t ht hagg
    rw [rewriteHavingCondition] at ht
    by_cases hg : a.column = "" ∨ a.outAlias = ""
    · rw [if_pos hg] at ht
      obtain ⟨hmem, hrest⟩ := ih _ t ht hagg
      refine ⟨hmem, ?_⟩
      intro b hb hc hal
      rcases List.mem_cons.mp hb with hb2 | hb2
      · subst hb2
        rcases hg with h | h
        · exact absurd h hc
        · exact absurd h hal
      · exact hrest b hb2 hc hal
    · rw [if_neg hg] at ht
      obtain ⟨hmem, hrest⟩ := ih _ t ht hagg
      rcases List.mem_map.mp hmem with ⟨t0, ht0, he⟩
      by_cases hh : aggPatternHits a t0 = true
      · rw [if_pos hh] at he
        rw [← he] at hagg
        simp [CondTok.isAgg] at hagg
      · rw [if_neg hh] at he
        subst he
        refine ⟨ht0, ?_⟩
        intro b hb hc hal
        rcases List.mem_cons.mp hb with hb2 | hb2
        · subst hb2
          simpa using hh
        · exact hrest b hb2 hc hal

/-- C5: rewriting the HAVING condition with the compile-time aggregate
aliases removes every aggregate-function occurrence, so the subsequent
filter runs purely against the alias columns already present in the
grouped relation. -/
theorem having_rewrite_complete (cond : Cond)
    (h : condAggColsNonempty cond = true) :
    hasAggTok (rewriteHavingCondition (extractAggregatesWithAliases cond) cond) = false := by
  rw [hasAggTok, List.any_eq_false]
  intro t ht
  by_contra hagg0
  have hagg : t.isAgg = true := by
    revert hagg0
    cases t.isAgg <;> simp
  obtain ⟨hmem, hall⟩ := rewriteHaving_preserve _ _ t ht hagg
  cases t with
  | lit s => simp [CondTok.isAgg] at hagg
  | agg f d c =>
    have hc : c ≠ "" := by
      have := List.all_eq_true.mp h _ hmem
      simpa using this
    have hpair : (f, c) ∈ aggMatches cond :=
      List.mem_filterMap.mpr ⟨.agg f d c, hmem, rfl⟩
    obtain ⟨a, ha, hfu, hco⟩ := assignAliases_pairs cond (aggMatches cond) [] (f, c) hpair
    have hane : a.outAlias ≠ "" := assignAliases_ne_empty cond _ _ a ha
    have hcne : a.column ≠ "" := by rw [hco]; exact hc
    have hhit : aggPatternHits a (.agg f d c) = true := by
      simp [aggPatternHits, hfu, hco]
    have hmiss := hall a ha hcne hane
    rw [hmiss] at hhit
    cases hhit

/-- C5 witness input: the HAVING condition
`MAX(frequency) - MIN(frequency) >= 16` as the aggregate patterns see it. -/
def cexC5cond : Cond :=
  [.agg .MAX false "frequency", .lit "-", .agg .MIN false "frequency", .lit ">= 16"]

/-- C5 witness: the rewrite theorem applied to the concrete HAVING
condition of the spec's scenario 7. -/
theorem having_rewrite_complete_witness :
    hasAggTok (rewriteHavingCondition (extractAggregatesWithAliases cexC5cond) cexC5cond)
      = false :=
  having_rewrite_complete cexC5cond (by decide)

end GraphMind
